import Mathlib

/-!
Verification of the node-DAG test execution engine of the
synmatai test platform, shallowly embedded from its Python sources:

* `agent_test_platform/core/state_machine.py`
* `agent_test_platform/config/node_strategy.py`
* `agent_test_platform/core/node_executor.py`
* `agent_test_platform/core/orchestrator.py`
* `agent_test_platform/core/conversation_executor.py`

External effects (the agent HTTP client, the Python `eval` of configured
expression strings, the database, wall-clock time) are modelled as
explicit oracle parameters.  Everything else follows the source line by
line.  Python floats are modelled by exact rationals; Python ints by
`Int`/`Nat`.
-/

namespace ATP

/-- `models.node_based.NodeStatus`. -/
inductive NodeStatus where
  | pending
  | running
  | success
  | failed
  | skipped
deriving DecidableEq, Repr

/-- `core.state_machine.TestState`. -/
inductive TestState where
  | idle
  | running
  | paused
  | completed
  | failed
  | cancelled
deriving DecidableEq, Repr

/-- The adjacency table built in `StateMachine.__init__` (`self.transitions`). -/
def stTransitions : TestState → List TestState
  | .idle => [.running, .failed]
  | .running => [.paused, .completed, .failed, .cancelled]
  | .paused => [.running, .cancelled]
  | .completed => []
  | .failed => []
  | .cancelled => []

/-- `StateMachine.can_transition`. -/
def canTransition (s t : TestState) : Bool :=
  decide (t ∈ stTransitions s)

/-- `StateMachine.transition`: returns the success flag together with the
state held afterwards (the source mutates `self.state` only on success). -/
def stTransition (s t : TestState) : Bool × TestState :=
  if canTransition s t then (true, t) else (false, s)

/-- Outcome of a Python `eval` of a configured expression string: either a
value whose truthiness is `b`, or a raised parse/runtime error. -/
inductive EvalRes where
  | ok (b : Bool)
  | error
deriving DecidableEq, Repr

/-- `config.node_strategy.ExitCondition`: the fields that drive
`should_continue_dialog`.  The task-detection fields live in the separate
`task_detection` strategy object, abstracted below by the `checkTask`
parameter. -/
structure ExitCondition where
  max_turns : Int := 10
  timeout_seconds : Int := 300
  custom_check_func : Option String := none
deriving DecidableEq, Repr

/-- Python truthiness of the optional string
`self.exit_condition.custom_check_func`: `None` and `""` are falsy. -/
def optStrTruthy : Option String → Bool
  | none => false
  | some s => s ≠ ""

/-- `NodeStrategy.should_continue_dialog`.  `checkTask` stands for the call
`self._check_task_generated(last_response)` and `evalCustom` for the Python
`eval` of the custom check function string on the bindings
`response, turns, elapsed_time` (both are external to this method: one is
a sibling method dispatching on the task-detection strategy, the other is
arbitrary configured code).  On a successful `eval`, `.ok b` carries the
truthiness of the result (`bool(result)`); on a raised error the
`except` branch returns `True`. -/
def shouldContinueDialog {α : Type} (ec : ExitCondition) (checkTask : α → Bool)
    (evalCustom : String → α → Int → Rat → EvalRes)
    (turns : Int) (elapsed_time : Rat) (last_response : α) : Bool :=
  if turns ≥ ec.max_turns then false
  else if elapsed_time > (ec.timeout_seconds : Rat) then false
  else if checkTask last_response then false
  else
    match ec.custom_check_func with
    | some code =>
        if code = "" then true
        else
          match evalCustom code last_response turns elapsed_time with
          | .ok b => b
          | .error => true
    | none => true

/-- `models.node_based.RunStatus` (node-based test runs). -/
inductive RunStatus where
  | pending
  | running
  | done
  | failed
deriving DecidableEq, Repr

/-- `models.test_run.TestRunStatus` (YAML-mode test runs). -/
inductive TestRunStatus where
  | pending
  | running
  | done
  | failed
  | cancelled
deriving DecidableEq, Repr

/-- Result of one user task as observed through
`asyncio.gather(*tasks, return_exceptions=True)`: the task returned
`True`, returned `False`, or raised an exception. -/
inductive UserOutcome where
  | ok
  | bad
  | exc
deriving DecidableEq, Repr

/-- The aggregate fields written by `TestOrchestrator._run_users_node_based`
after all user tasks resolve. -/
structure NodeRunAgg where
  success_users : Nat
  failed_users : Nat
  current_users : Nat
  progress : Int
  status : RunStatus
deriving DecidableEq, Repr

/-- `TestOrchestrator._run_users_node_based`, lines 238-247:
`successful = sum(1 for r in results if r is True)`,
`failed = sum(1 for r in results if r is False or isinstance(r, Exception))`,
`progress = int((current_users / total_users) * 100) if total_users else 0`,
`status = DONE if failed == 0 else FAILED`.
The float division is modelled by exact rational division; `int(...)` on a
non-negative value is the floor. -/
def nodeBasedAggregate (results : List UserOutcome) (total_users : Nat) : NodeRunAgg :=
  let successful := results.countP (fun r => decide (r = .ok))
  let failed := results.countP (fun r => (decide (r = .bad) || decide (r = .exc)))
  let current := successful + failed
  { success_users := successful
    failed_users := failed
    current_users := current
    progress := if total_users ≠ 0 then ⌊((current : Rat) / (total_users : Rat)) * 100⌋ else 0
    status := if failed = 0 then .done else .failed }

/-- The aggregate fields written by `TestOrchestrator._run_users`
(YAML mode) after `gather` resolves. -/
structure YamlRunAgg where
  completed_users : Nat
  failed_users : Nat
  status : TestRunStatus
deriving DecidableEq, Repr

/-- `TestOrchestrator._run_users`, lines 154-173:
`successful = sum(1 for r in results if r is True)`,
`failed = sum(1 for r in results if r is False)` (an exception result is
counted as neither), and line 169 reads
`TestRunStatus.DONE if failed == 0 else TestRunStatus.DONE` —
both branches of the conditional are `DONE`. -/
def yamlAggregate (results : List UserOutcome) : YamlRunAgg :=
  let successful := results.countP (fun r => decide (r = .ok))
  let failed := results.countP (fun r => decide (r = .bad))
  { completed_users := successful
    failed_users := failed
    status := if failed = 0 then TestRunStatus.done else TestRunStatus.done }

/-- The fields of `models.node_config_model.NodeConfig` consumed by
`NodeDAGExecutor`; `id` is the inherited database primary key used as a
fallback by `_node_id`, and a Python `None`/missing string is `""`. -/
structure NodeConfig where
  id : String := ""
  node_id : String := ""
  node_name : String := ""
  node_type : String := ""
  dependencies : List String := []
deriving DecidableEq, Repr

/-- `NodeDAGExecutor._node_id`: `node.node_id or node.id`. -/
def nodeKey (n : NodeConfig) : String :=
  if n.node_id = "" then n.id else n.node_id

/-- `NodeDAGExecutor._node_ids`. -/
def nodeIds (nodes : List NodeConfig) : List String :=
  nodes.map nodeKey

/-- `NodeDAGExecutor._get_node`: the first node whose id matches. -/
def findNode (nodes : List NodeConfig) (nid : String) : Option NodeConfig :=
  nodes.find? (fun n => nodeKey n == nid)

/-- Key list of a Python dict built by comprehension over `l`, tracking
the keys already inserted: first occurrences, in insertion order. -/
def dictKeysAux (seen : List String) : List String → List String
  | [] => []
  | x :: xs =>
      if x ∈ seen then dictKeysAux seen xs
      else x :: dictKeysAux (seen ++ [x]) xs

/-- The key list of a Python dict built by comprehension over `l`:
first occurrences, in insertion order. -/
def dictKeys (l : List String) : List String :=
  dictKeysAux [] l

/-- The in-degree table of `_topological_sort`: for every node and every
of its dependencies that is itself a key of the table
(`if dep_id in adjacency:`), the node's entry is incremented once. -/
def inDeg0 (nodes : List NodeConfig) (v : String) : Nat :=
  (nodes.map (fun n =>
    if nodeKey n = v then
      n.dependencies.countP (fun d => decide (d ∈ nodeIds nodes))
    else 0)).sum

/-- The adjacency table of `_topological_sort`: `adjOf nodes v` lists, for
every node `n` and every occurrence of `v` among `n.dependencies`, the id
of `n`, in iteration order.  (The source guards with
`if dep_id in adjacency`; the table is only ever read at keys `v` that
are known node ids, where the guard is implied by `d = v`.) -/
def adjOf (nodes : List NodeConfig) (v : String) : List String :=
  nodes.flatMap (fun n => (n.dependencies.filter (fun d => d == v)).map (fun _ => nodeKey n))

/-- The inner loop of Kahn's algorithm
(`for neighbor in adjacency[node_id]:`): decrement each neighbour's
in-degree, enqueueing it when the count becomes exactly zero.  Counters
are `Int` because a Python counter may in principle go negative. -/
def stepNeighbors (D : String → Int) (Q : List String) :
    List String → (String → Int) × List String
  | [] => (D, Q)
  | w :: ws =>
      let d := D w - 1
      stepNeighbors (fun x => if x = w then d else D x)
        (if d = 0 then Q ++ [w] else Q) ws

/-- The outer `while queue:` loop of Kahn's algorithm.  `fuel` bounds the
iterations of this embedding; `topologicalSort` passes `nodes.length + 1`,
which is never exhausted because every iteration appends one element of
the (duplicate-free) key set to the result. -/
def kahnLoop (adj : String → List String) :
    Nat → (String → Int) → List String → List String → List String
  | _, _, [], res => res
  | 0, _, _ :: _, res => res
  | fuel + 1, D, u :: rest, res =>
      let p := stepNeighbors D rest (adj u)
      kahnLoop adj fuel p.1 p.2 (res ++ [u])

/-- `NodeDAGExecutor._topological_sort`: build the in-degree and adjacency
tables, seed the queue with the zero-in-degree keys in insertion order,
run Kahn's algorithm, and return `[]` when the result misses nodes
(cyclic dependency detected). -/
def topologicalSort (nodes : List NodeConfig) : List String :=
  let ids := nodeIds nodes
  let D0 : String → Int := fun v => (inDeg0 nodes v : Int)
  let q0 := (dictKeys ids).filter (fun v => decide (D0 v = 0))
  let result := kahnLoop (adjOf nodes) (nodes.length + 1) D0 q0 []
  if result.length = ids.length then result else []

/-- Oracle for the external effects of one `NodeDAGExecutor` run: whether
creating the user-execution row succeeds, the outcome
`success and response_json` of the agent HTTP call of each action node,
and the outcome of the Python `eval` inside `_evaluate_condition` for
each assertion/condition node, keyed by node id. -/
structure RunEnv where
  createOk : Bool := true
  httpOk : String → Bool := fun _ => true
  evalCond : String → EvalRes := fun _ => .ok true

/-- `NodeDAGExecutor._evaluate_condition`: `bool(eval(...))` on success;
the `except` branch logs a warning and returns `True`. -/
def evaluateCondition (r : EvalRes) : Bool :=
  match r with
  | .ok b => b
  | .error => true

/-- The mutable per-user execution state: the `node_states` map (every
read uses `.get(dep_id, NodeStatus.PENDING)`, so a total function with
default `pending` is faithful), the ordered trace of all assignments made
to `node_states` by the node loop, and the node ids passed to
`_execute_node`. -/
structure ExecState where
  states : String → NodeStatus
  trace : List (String × NodeStatus)
  executed : List String

def initExecState : ExecState :=
  { states := fun _ => .pending, trace := [], executed := [] }

/-- One assignment `self.node_states[v] = s`, recorded in the trace. -/
def setState (st : ExecState) (v : String) (s : NodeStatus) : ExecState :=
  { st with
    states := fun x => if x = v then s else st.states x
    trace := st.trace ++ [(v, s)] }

/-- `NodeDAGExecutor._check_dependencies`: `True` when the node is missing
or has no dependencies, otherwise no dependency may be failed/skipped. -/
def checkDependencies (nodes : List NodeConfig) (states : String → NodeStatus)
    (nid : String) : Bool :=
  match findNode nodes nid with
  | none => true
  | some n =>
      n.dependencies.all
        (fun d => !decide (states d = NodeStatus.failed ∨ states d = NodeStatus.skipped))

/-- ASCII lowercasing of one character (the node-type strings the
dispatcher compares against are ASCII). -/
def charLower (c : Char) : Char :=
  if 65 ≤ c.toNat ∧ c.toNat ≤ 90 then Char.ofNat (c.toNat + 32) else c

/-- `str.lower()` for ASCII strings. -/
def strLower (s : String) : String :=
  String.mk (s.data.map charLower)

/-- `(node.node_type or "").lower()`, defaulting the empty result to
`"action"`. -/
def normType (t : String) : String :=
  let s := strLower t
  if s = "" then "action" else s

/-- `_execute_assertion_node` (also the whole body of
`_execute_condition_node`, which delegates to it): mark running, evaluate
the configured condition expression, mark success/failed accordingly and
return the flag.  The `except` handler of the method is unreachable here
because `_evaluate_condition` itself never raises. -/
def execAssertionNode (env : RunEnv) (n : NodeConfig) (st : ExecState) :
    ExecState × Bool :=
  let nid := nodeKey n
  let st1 := setState st nid .running
  let ok := evaluateCondition (env.evalCond nid)
  if ok then (setState st1 nid .success, true)
  else (setState st1 nid .failed, false)

/-- `_execute_action_node`: mark running, make the HTTP call, mark
success/failed by `success and response_json`.  Field extraction into
`user_context` affects none of the claims and is omitted from the state. -/
def execActionNode (env : RunEnv) (n : NodeConfig) (st : ExecState) :
    ExecState × Bool :=
  let nid := nodeKey n
  let st1 := setState st nid .running
  if env.httpOk nid then (setState st1 nid .success, true)
  else (setState st1 nid .failed, false)

/-- `_execute_start_node` / `_execute_end_node`: immediate success. -/
def execMarkerNode (n : NodeConfig) (st : ExecState) : ExecState × Bool :=
  (setState st (nodeKey n) .success, true)

/-- `_execute_node`: dispatch on the lower-cased node type; an unknown
type logs a warning and returns `False` without touching `node_states`. -/
def execNode (env : RunEnv) (n : NodeConfig) (st : ExecState) : ExecState × Bool :=
  let t := normType n.node_type
  if t = "start" then execMarkerNode n st
  else if t = "end" then execMarkerNode n st
  else if t = "action" then execActionNode env n st
  else if t = "assertion" then execAssertionNode env n st
  else if t = "condition" then execAssertionNode env n st
  else (st, false)

/-- The node loop of `NodeDAGExecutor.run` (step 4): look the node up
(`continue` when missing), gate on dependencies — marking the node
skipped without executing it when gating fails — otherwise execute it; a
per-node `False` result only logs a warning and the loop proceeds. -/
def runLoop (env : RunEnv) (nodes : List NodeConfig) :
    List String → ExecState → ExecState
  | [], st => st
  | nid :: rest, st =>
      match findNode nodes nid with
      | none => runLoop env nodes rest st
      | some n =>
          if checkDependencies nodes st.states nid then
            runLoop env nodes rest
              (execNode env n { st with executed := st.executed ++ [nid] }).1
          else
            runLoop env nodes rest (setState st nid .skipped)

/-- Result of `NodeDAGExecutor.run` for one user: the returned boolean,
the terminal status written by `_finalize_user` (`none` when the run
aborted before finalisation), and the final execution state. -/
structure RunResult where
  returned : Bool
  userStatus : Option NodeStatus
  state : ExecState

/-- `NodeDAGExecutor.run`: create the user-execution record (abort
returning `False` on failure), initialise `node_states` to pending,
topologically sort (abort returning `False` on an empty order, the
cyclic-dependency signal), otherwise run the node loop over the order and
finalise the user with `success=True`, returning `True`.  The `except`
branch of the method would only fire on an exception, which this
embedding's oracles never produce. -/
def runUser (env : RunEnv) (nodes : List NodeConfig) : RunResult :=
  if !env.createOk then
    { returned := false, userStatus := none, state := initExecState }
  else
    let order := topologicalSort nodes
    if order.isEmpty then
      { returned := false, userStatus := none, state := initExecState }
    else
      { returned := true, userStatus := some .success,
        state := runLoop env nodes order initExecState }

/-- An agent response, a JSON dict; `[]` is the empty dict. -/
abbrev Resp := List (String × String)

/-- One recorded dialog turn (`models.conversation_model.DialogTurn`
restricted to the fields the claims mention); the entries of
`self.dialog_history` carry the same fields and share this shape. -/
structure DialogTurnRec where
  turn_number : Nat
  user_message : String
  agent_response : Resp
  task_detected : Bool
deriving DecidableEq, Repr

/-- `ConversationExecutor`'s mutable state: `self.turn_count`,
`self.dialog_history`, and the `DialogTurn` rows created in the database. -/
structure DialogState where
  turnCount : Nat := 0
  history : List DialogTurnRec := []
  turns : List DialogTurnRec := []
deriving DecidableEq, Repr

/-- `ConversationExecutor._send_turn`.  `httpCall t` is the outcome of
`self.http_client.call_agent` for turn number `t`: `none` models
`success=False` — the method then logs a warning and returns `{}`
without creating a `DialogTurn`, appending to the history, or emitting an
event — while `some resp` models success with response `resp`
(`response or {}` already applied).  `checkTask` stands for
`self.node_strategy._check_task_generated`. -/
def sendTurn (checkTask : Resp → Bool) (httpCall : Nat → Option Resp)
    (msg : String) (st : DialogState) : DialogState × Resp :=
  let tc := st.turnCount + 1
  match httpCall tc with
  | none => ({ st with turnCount := tc }, [])
  | some resp =>
      let detected := checkTask resp
      let rec0 : DialogTurnRec :=
        { turn_number := tc, user_message := msg,
          agent_response := resp, task_detected := detected }
      ({ turnCount := tc, history := st.history ++ [rec0],
         turns := st.turns ++ [rec0] }, resp)

/-- `self.dialog_history[-1] if self.dialog_history else {}`; the empty
dict is `none`. -/
def lastHistEntry (st : DialogState) : Option DialogTurnRec :=
  st.history.getLast?

/-- The `while True:` loop of `ConversationExecutor.execute` (step 3):
stop when `should_continue_dialog` says so, otherwise generate the next
message and send a turn.  `elapsedAt i` is the wall-clock `elapsed` read
at loop iteration `i` (time is external); `nextMsg` stands for
`self.node_strategy.get_next_message`; `checkHist` is
`_check_task_generated` as applied to a history entry; `fuel` bounds the
iterations of this embedding only. -/
def dialogLoop (ec : ExitCondition) (checkHist : Option DialogTurnRec → Bool)
    (evalCustom : String → Option DialogTurnRec → Int → Rat → EvalRes)
    (checkTask : Resp → Bool) (httpCall : Nat → Option Resp)
    (nextMsg : List DialogTurnRec → String) (elapsedAt : Nat → Rat) :
    Nat → Nat → DialogState → DialogState
  | 0, _, st => st
  | fuel + 1, i, st =>
      if shouldContinueDialog ec checkHist evalCustom (st.turnCount : Int)
          (elapsedAt i) (lastHistEntry st) then
        dialogLoop ec checkHist evalCustom checkTask httpCall nextMsg elapsedAt
          fuel (i + 1) (sendTurn checkTask httpCall (nextMsg st.history) st).1
      else st

/-- `ConversationExecutor.execute`: create the conversation row, send the
initial message, run the dialog loop, finalise as COMPLETED and return
`True` (the FAILED path requires an exception, which the oracles here
never raise). -/
def executeDialog (ec : ExitCondition) (checkHist : Option DialogTurnRec → Bool)
    (evalCustom : String → Option DialogTurnRec → Int → Rat → EvalRes)
    (checkTask : Resp → Bool) (httpCall : Nat → Option Resp)
    (nextMsg : List DialogTurnRec → String) (elapsedAt : Nat → Rat)
    (initialMessage : String) (fuel : Nat) : DialogState :=
  dialogLoop ec checkHist evalCustom checkTask httpCall nextMsg elapsedAt fuel 0
    (sendTurn checkTask httpCall initialMessage {}).1

/-! ### Analysis of the topological sort

The definitions below (`Edge`, `Acyclic`, `remDeg`, `enqList`, `KahnInv`)
are proof devices, not part of the embedding: they describe the dependency
graph and the loop invariant of `kahnLoop`. -/

/-- The dependency edge relation of a scenario: `Edge nodes a b` holds when
some node with id `b` lists the known node id `a` among its dependencies
(exactly the edges `_topological_sort` materialises in `adjacency`). -/
def Edge (nodes : List NodeConfig) (a b : String) : Prop :=
  a ∈ nodeIds nodes ∧ ∃ n ∈ nodes, nodeKey n = b ∧ a ∈ n.dependencies

/-- A scenario graph is acyclic when its edges admit a strictly monotone
ranking (for a finite graph this is equivalent to having no directed
cycle). -/
def Acyclic (nodes : List NodeConfig) : Prop :=
  ∃ rank : String → Nat, ∀ a b, Edge nodes a b → rank a < rank b

/-- Remaining in-degree of `v` once the nodes of `R` are processed: the
number of known dependency occurrences of `v`-keyed nodes outside `R`. -/
def remDeg (nodes : List NodeConfig) (R : List String) (v : String) : Nat :=
  (nodes.map (fun n =>
    if nodeKey n = v then
      n.dependencies.countP
        (fun d => decide (d ∈ nodeIds nodes) && decide (d ∉ R))
    else 0)).sum

/-- The elements `stepNeighbors` enqueues, in order: those whose counter
becomes exactly zero while `ws` is processed. -/
def enqList (D : String → Int) : List String → List String
  | [] => []
  | w :: ws =>
      (if D w - 1 = 0 then [w] else []) ++
        enqList (fun x => if x = w then D w - 1 else D x) ws

/-- Loop invariant of `kahnLoop` over nodes with pairwise-distinct ids:
`R` is the result so far, `Q` the queue, `D` the counter table. -/
structure KahnInv (nodes : List NodeConfig) (D : String → Int)
    (Q R : List String) : Prop where
  subKeys : ∀ v ∈ R ++ Q, v ∈ nodeIds nodes
  nodup : (R ++ Q).Nodup
  deg : ∀ v, D v = (remDeg nodes R v : Int)
  zero : ∀ v ∈ nodeIds nodes, (D v = 0 ↔ v ∈ R ++ Q)
  order : ∀ n ∈ nodes, ∀ d ∈ n.dependencies, d ∈ nodeIds nodes →
      ∀ p q, R = p ++ nodeKey n :: q → d ∈ p

lemma dictKeysAux_eq_self : ∀ {l seen : List String}, l.Nodup →
    (∀ x ∈ l, x ∉ seen) → dictKeysAux seen l = l := by
  intro l
  induction l with
  | nil => intro seen _ _; rfl
  | cons x xs ih =>
      intro seen hnd hs
      have hx : x ∉ seen := hs x (by simp)
      simp only [dictKeysAux, if_neg hx]
      congr 1
      refine ih (List.Nodup.of_cons hnd) ?_
      intro y hy
      simp only [List.mem_append, List.mem_singleton]
      rintro (h | rfl)
      · exact hs y (by simp [hy]) h
      · exact (List.nodup_cons.1 hnd).1 hy

lemma dictKeys_eq_self {l : List String} (h : l.Nodup) : dictKeys l = l :=
  dictKeysAux_eq_self h (by simp)

lemma stepNeighbors_fst : ∀ (ws : List String) (D : String → Int)
    (Q : List String) (x : String),
    (stepNeighbors D Q ws).1 x = D x - (ws.count x : Int) := by
  intro ws
  induction ws with
  | nil => intro D Q x; simp [stepNeighbors]
  | cons w ws ih =>
      intro D Q x
      simp only [stepNeighbors]
      rw [ih]
      by_cases h : x = w
      · subst h
        simp only [if_pos rfl, List.count_cons, beq_iff_eq, if_pos rfl]
        push_cast
        ring
      · have hwx : ¬ w = x := fun hh => h hh.symm
        simp only [if_neg h, List.count_cons, beq_iff_eq, if_neg hwx, add_zero]

lemma stepNeighbors_snd : ∀ (ws : List String) (D : String → Int)
    (Q : List String),
    (stepNeighbors D Q ws).2 = Q ++ enqList D ws := by
  intro ws
  induction ws with
  | nil => intro D Q; simp [stepNeighbors, enqList]
  | cons w ws ih =>
      intro D Q
      simp only [stepNeighbors, enqList]
      rw [ih]
      by_cases h : D w - 1 = 0 <;> simp [h]

lemma mem_enqList : ∀ (ws : List String) (D : String → Int) (x : String),
    x ∈ enqList D ws ↔ 1 ≤ D x ∧ D x ≤ (ws.count x : Int) := by
  intro ws
  induction ws with
  | nil =>
      intro D x
      simp only [enqList, List.not_mem_nil, false_iff, List.count_nil]
      intro h
      omega
  | cons w ws ih =>
      intro D x
      simp only [enqList, List.mem_append, ih, List.count_cons, beq_iff_eq]
      by_cases hxw : x = w
      · subst hxw
        by_cases hd : D x - 1 = 0 <;> simp [hd] <;> omega
      · have hwx : ¬ w = x := fun hh => hxw hh.symm
        simp only [if_neg hxw, if_neg hwx, add_zero]
        by_cases hd : D w - 1 = 0 <;> simp [hd, hxw]

lemma enqList_nodup : ∀ (ws : List String) (D : String → Int),
    (enqList D ws).Nodup := by
  intro ws
  induction ws with
  | nil => intro D; simp [enqList]
  | cons w ws ih =>
      intro D
      simp only [enqList]
      by_cases hd : D w - 1 = 0
      · simp only [if_pos hd, List.singleton_append, List.nodup_cons]
        refine ⟨?_, ih _⟩
        intro hmem
        rw [mem_enqList] at hmem
        have h1 := hmem.1
        simp at h1
        omega
      · simpa [hd] using ih _

lemma countP_dep_split (ids R : List String) (u : String) (hu : u ∈ ids)
    (hnr : u ∉ R) :
    ∀ l : List String,
      l.countP (fun d => decide (d ∈ ids) && decide (d ∉ R)) =
      l.countP (fun d => decide (d ∈ ids) && decide (d ∉ R ++ [u])) +
      l.countP (fun d => d == u) := by
  intro l
  induction l with
  | nil => rfl
  | cons d l ih =>
      simp only [List.countP_cons, ih]
      by_cases hdu : d = u
      · subst hdu
        simp [hu, hnr, List.mem_append]
        omega
      · have hiff : d ∉ R ++ [u] ↔ d ∉ R := by simp [List.mem_append, hdu]
        simp [hdu, hiff]
        all_goals omega

lemma sum_map_add {α : Type} (l : List α) (f g : α → Nat) :
    (l.map (fun n => f n + g n)).sum = (l.map f).sum + (l.map g).sum := by
  induction l with
  | nil => rfl
  | cons a l ih =>
      simp only [List.map_cons, List.sum_cons, ih]
      omega

lemma count_map_const {α : Type} (l : List α) (c v : String) :
    (l.map (fun _ => c)).count v = if c = v then l.length else 0 := by
  induction l with
  | nil => simp
  | cons a l ih =>
      simp only [List.map_cons, List.count_cons, ih, List.length_cons]
      by_cases h : c = v <;> simp [h]

lemma count_adjOf (nodes : List NodeConfig) (u v : String) :
    (adjOf nodes u).count v =
      (nodes.map (fun n =>
        if nodeKey n = v then n.dependencies.countP (fun d => d == u) else 0)).sum := by
  induction nodes with
  | nil => rfl
  | cons n ns ih =>
      have hcons : adjOf (n :: ns) u =
          ((n.dependencies.filter (fun d => d == u)).map (fun _ => nodeKey n)) ++
            adjOf ns u := rfl
      rw [hcons, List.count_append, ih, count_map_const, List.map_cons, List.sum_cons]
      rw [List.countP_eq_length_filter]

lemma remDeg_append (nodes : List NodeConfig) (R : List String) (u : String)
    (hu : u ∈ nodeIds nodes) (hnr : u ∉ R) (v : String) :
    remDeg nodes R v = remDeg nodes (R ++ [u]) v + (adjOf nodes u).count v := by
  rw [count_adjOf]
  unfold remDeg
  rw [← sum_map_add]
  apply congrArg
  apply List.map_congr_left
  intro n _
  by_cases h : nodeKey n = v
  · simp only [if_pos h]
    exact countP_dep_split (nodeIds nodes) R u hu hnr n.dependencies
  · simp [if_neg h]

lemma remDeg_nil (nodes : List NodeConfig) (v : String) :
    remDeg nodes [] v = inDeg0 nodes v := by
  unfold remDeg inDeg0
  apply congrArg
  apply List.map_congr_left
  intro n _
  by_cases h : nodeKey n = v
  · simp only [if_pos h]
    apply List.countP_congr
    intro d _
    simp
  · simp [if_neg h]

lemma remDeg_eq_zero_iff (nodes : List NodeConfig) (R : List String) (v : String) :
    remDeg nodes R v = 0 ↔
      ∀ n ∈ nodes, nodeKey n = v →
        ∀ d ∈ n.dependencies, d ∈ nodeIds nodes → d ∈ R := by
  unfold remDeg
  rw [List.sum_eq_zero_iff]
  constructor
  · intro h n hn hkey d hd hids
    have hz := h _ (List.mem_map_of_mem _ hn)
    rw [if_pos hkey] at hz
    rw [List.countP_eq_zero] at hz
    have := hz d hd
    simp only [Bool.and_eq_true, decide_eq_true_eq] at this
    by_contra hdr
    exact this ⟨hids, hdr⟩
  · intro h x hx
    rcases List.mem_map.1 hx with ⟨n, hn, rfl⟩
    by_cases hkey : nodeKey n = v
    · rw [if_pos hkey, List.countP_eq_zero]
      intro d hd
      simp only [Bool.and_eq_true, decide_eq_true_eq, not_and]
      intro hids
      simp [h n hn hkey d hd hids]
    · rw [if_neg hkey]

lemma mem_adjOf {nodes : List NodeConfig} {u x : String}
    (h : x ∈ adjOf nodes u) : x ∈ nodeIds nodes := by
  simp only [adjOf, List.mem_flatMap, List.mem_map] at h
  rcases h with ⟨n, hn, _, _, rfl⟩
  exact List.mem_map_of_mem _ hn

lemma kahnInv_step {nodes : List NodeConfig} {D : String → Int} {u : String}
    {rest R : List String} (h : KahnInv nodes D (u :: rest) R) :
    KahnInv nodes (stepNeighbors D rest (adjOf nodes u)).1
      (stepNeighbors D rest (adjOf nodes u)).2 (R ++ [u]) := by
  have hu_ids : u ∈ nodeIds nodes := h.subKeys u (by simp)
  have hnd := List.nodup_append.1 h.nodup
  have hu_notR : u ∉ R := fun hR => hnd.2.2 hR (List.mem_cons_self u rest)
  have hDu0 : D u = 0 := (h.zero u hu_ids).2 (by simp)
  have hremu : remDeg nodes R u = 0 := by
    have h2 := h.deg u
    rw [hDu0] at h2
    exact_mod_cast h2.symm
  have hcnt : ∀ v, remDeg nodes R v =
      remDeg nodes (R ++ [u]) v + (adjOf nodes u).count v :=
    remDeg_append nodes R u hu_ids hu_notR
  have hfst : ∀ x, (stepNeighbors D rest (adjOf nodes u)).1 x =
      D x - ((adjOf nodes u).count x : Int) :=
    stepNeighbors_fst _ D rest
  have hsnd : (stepNeighbors D rest (adjOf nodes u)).2 =
      rest ++ enqList D (adjOf nodes u) :=
    stepNeighbors_snd _ D rest
  have hE_ids : ∀ x ∈ enqList D (adjOf nodes u), x ∈ nodeIds nodes := by
    intro x hx
    have hb := (mem_enqList _ D x).1 hx
    have hpos : 0 < (adjOf nodes u).count x := by omega
    exact mem_adjOf (List.count_pos_iff.1 hpos)
  have hE_not : ∀ x ∈ enqList D (adjOf nodes u), x ∉ R ++ u :: rest := by
    intro x hx hmem
    have hb := (mem_enqList _ D x).1 hx
    have hx_ids := h.subKeys x hmem
    have hx0 := (h.zero x hx_ids).2 hmem
    omega
  have hE_nodup : (enqList D (adjOf nodes u)).Nodup := enqList_nodup _ D
  refine ⟨?_, ?_, ?_, ?_, ?_⟩
  · intro v hv
    rw [hsnd] at hv
    simp only [List.mem_append, List.mem_cons, List.not_mem_nil, or_false] at hv
    rcases hv with (hv | rfl) | hv | hv
    · exact h.subKeys v (List.mem_append_left _ hv)
    · exact hu_ids
    · exact h.subKeys v (List.mem_append_right _ (List.mem_cons_of_mem _ hv))
    · exact hE_ids v hv
  · rw [hsnd]
    have hre : (R ++ [u]) ++ (rest ++ enqList D (adjOf nodes u)) =
        (R ++ u :: rest) ++ enqList D (adjOf nodes u) := by
      simp
    rw [hre]
    exact List.nodup_append.2 ⟨h.nodup, hE_nodup, fun a ha haE => hE_not a haE ha⟩
  · intro v
    rw [hfst, h.deg v, hcnt v]
    push_cast
    ring
  · intro v hv_ids
    rw [hfst, hsnd]
    constructor
    · intro h0
      by_cases hDv : D v = 0
      · have hvm := (h.zero v hv_ids).1 hDv
        simp only [List.mem_append, List.mem_cons, List.mem_singleton] at hvm ⊢
        tauto
      · have hdeg := h.deg v
        have hnn : (0 : Int) ≤ (remDeg nodes R v : Int) := Int.natCast_nonneg _
        have h1 : 1 ≤ D v := by omega
        have h2 : D v ≤ ((adjOf nodes u).count v : Int) := by omega
        have hvE := (mem_enqList _ D v).2 ⟨h1, h2⟩
        simp only [List.mem_append]
        tauto
    · intro hvm
      simp only [List.mem_append, List.mem_cons, List.not_mem_nil, or_false] at hvm
      have hdeg := h.deg v
      have hc := hcnt v
      rcases hvm with (hv | rfl) | hv | hv
      · have hD0 : D v = 0 := (h.zero v hv_ids).2 (List.mem_append_left _ hv)
        omega
      · omega
      · have hD0 : D v = 0 :=
          (h.zero v hv_ids).2 (List.mem_append_right _ (List.mem_cons_of_mem _ hv))
        omega
      · have hb := (mem_enqList _ D v).1 hv
        omega
  · intro n hn d hd hd_ids p q heq
    rcases List.eq_nil_or_concat' q with rfl | ⟨q₀, u₀, rfl⟩
    · obtain ⟨hRp, hun⟩ := List.append_inj' heq rfl
      have hkey : nodeKey n = u := by
        simpa using hun.symm
      subst hRp
      exact (remDeg_eq_zero_iff nodes R u).1 hremu n hn hkey d hd hd_ids
    · have hassoc : p ++ nodeKey n :: (q₀ ++ [u₀]) =
          (p ++ nodeKey n :: q₀) ++ [u₀] := by simp
      obtain ⟨hR, -⟩ := List.append_inj' (heq.trans hassoc) rfl
      exact h.order n hn d hd hd_ids p q₀ hR

lemma kahnInv_init {nodes : List NodeConfig} (hids : (nodeIds nodes).Nodup) :
    KahnInv nodes (fun v => (inDeg0 nodes v : Int))
      ((dictKeys (nodeIds nodes)).filter
        (fun v => decide ((inDeg0 nodes v : Int) = 0))) [] := by
  rw [dictKeys_eq_self hids]
  refine ⟨?_, ?_, ?_, ?_, ?_⟩
  · intro v hv
    simp only [List.nil_append] at hv
    exact (List.mem_filter.1 hv).1
  · simp only [List.nil_append]
    exact hids.filter _
  · intro v
    rw [remDeg_nil]
  · intro v hv
    simp only [List.nil_append, List.mem_filter]
    constructor
    · intro h0
      exact ⟨hv, by simpa using h0⟩
    · rintro ⟨-, h0⟩
      simpa using h0
  · intro n hn d hd hd_ids p q heq
    exact absurd heq (by simp)

lemma kahnLoop_post {nodes : List NodeConfig} (hids : (nodeIds nodes).Nodup) :
    ∀ (fuel : Nat) (D : String → Int) (Q R : List String),
      KahnInv nodes D Q R → (nodeIds nodes).length < fuel + R.length →
      ∃ R₂, kahnLoop (adjOf nodes) fuel D Q R = R₂ ∧
        ∃ D₂, KahnInv nodes D₂ [] R₂ := by
  intro fuel
  induction fuel with
  | zero =>
      intro D Q R hInv hlen
      match Q with
      | [] => exact ⟨R, rfl, D, hInv⟩
      | u :: rest =>
          exfalso
          have hsubf : (R ++ u :: rest).toFinset ⊆ (nodeIds nodes).toFinset := by
            intro x hx
            rw [List.mem_toFinset] at hx ⊢
            exact hInv.subKeys x hx
          have hcard := Finset.card_le_card hsubf
          rw [List.toFinset_card_of_nodup hInv.nodup,
            List.toFinset_card_of_nodup hids] at hcard
          simp only [List.length_append, List.length_cons] at hcard
          omega
  | succ fuel ih =>
      intro D Q R hInv hlen
      match Q with
      | [] => exact ⟨R, rfl, D, hInv⟩
      | u :: rest =>
          have hstep := kahnInv_step hInv
          have hres := ih _ _ _ hstep
            (by simp only [List.length_append, List.length_singleton]; omega)
          exact hres

lemma kahnInv_complete {nodes : List NodeConfig}
    (hacyc : Acyclic nodes) {D : String → Int} {R : List String}
    (hInv : KahnInv nodes D [] R) : ∀ v ∈ nodeIds nodes, v ∈ R := by
  obtain ⟨rank, hrank⟩ := hacyc
  by_contra hcon
  push_neg at hcon
  obtain ⟨v0, hv0_ids, hv0R⟩ := hcon
  have hv0M : v0 ∈ (nodeIds nodes).filter (fun v => decide (v ∉ R)) := by
    simp [List.mem_filter, hv0_ids, hv0R]
  have hne : ((nodeIds nodes).filter (fun v => decide (v ∉ R))).toFinset.Nonempty :=
    ⟨v0, by simpa [List.mem_toFinset] using hv0M⟩
  obtain ⟨m, hmM, hmin⟩ := Finset.exists_min_image _ rank hne
  rw [List.mem_toFinset, List.mem_filter] at hmM
  have hm_ids : m ∈ nodeIds nodes := hmM.1
  have hmR : m ∉ R := by simpa using hmM.2
  have hdeps : ∀ n ∈ nodes, nodeKey n = m →
      ∀ d ∈ n.dependencies, d ∈ nodeIds nodes → d ∈ R := by
    intro n hn hkey d hd hd_ids
    by_contra hdR
    have hdM : d ∈ ((nodeIds nodes).filter (fun v => decide (v ∉ R))).toFinset := by
      simp [List.mem_toFinset, List.mem_filter, hd_ids, hdR]
    have hlt : rank d < rank m := hrank d m ⟨hd_ids, n, hn, hkey, hd⟩
    have := hmin d hdM
    omega
  have hrem : remDeg nodes R m = 0 := (remDeg_eq_zero_iff nodes R m).2 hdeps
  have hDm : D m = 0 := by
    rw [hInv.deg m, hrem]
    rfl
  have hmem := (hInv.zero m hm_ids).1 hDm
  rw [List.append_nil] at hmem
  exact hmR hmem

lemma topologicalSort_run {nodes : List NodeConfig}
    (hids : (nodeIds nodes).Nodup) :
    ∃ R₂, (∃ D₂, KahnInv nodes D₂ [] R₂) ∧
      topologicalSort nodes =
        (if R₂.length = (nodeIds nodes).length then R₂ else []) := by
  obtain ⟨R₂, hrun, hpost⟩ :=
    kahnLoop_post hids (nodes.length + 1) (fun v => (inDeg0 nodes v : Int))
      ((dictKeys (nodeIds nodes)).filter
        (fun v => decide ((inDeg0 nodes v : Int) = 0))) []
      (kahnInv_init hids)
      (by simp [nodeIds])
  refine ⟨R₂, hpost, ?_⟩
  simp only [topologicalSort]
  rw [hrun]

lemma edge_indexOf_lt {nodes : List NodeConfig} {D₂ : String → Int}
    {R : List String} (hInv : KahnInv nodes D₂ [] R)
    (hall : ∀ v ∈ nodeIds nodes, v ∈ R) :
    ∀ a b, Edge nodes a b → R.indexOf a < R.indexOf b := by
  rintro a b ⟨ha_ids, n, hn, hkey, hdep⟩
  have hb_ids : b ∈ nodeIds nodes := by
    rw [← hkey]
    exact List.mem_map_of_mem nodeKey hn
  have hbR : b ∈ R := hall b hb_ids
  obtain ⟨p, q, hpq⟩ := List.append_of_mem hbR
  have haP : a ∈ p := hInv.order n hn a hdep ha_ids p q (by rw [hpq, hkey])
  have hndR : R.Nodup := by simpa using hInv.nodup
  have hbp : b ∉ p := by
    rw [hpq] at hndR
    have h1 := (List.nodup_cons.1 (List.nodup_middle.1 hndR)).1
    exact fun hb => h1 (List.mem_append_left _ hb)
  rw [hpq, List.indexOf_append_of_mem haP, List.indexOf_append_of_not_mem hbp,
    List.indexOf_cons_self]
  calc List.indexOf a p < p.length := List.indexOf_lt_length.2 haP
    _ ≤ p.length + 0 := by omega

lemma topologicalSort_of_cycle {nodes : List NodeConfig}
    (hids : (nodeIds nodes).Nodup)
    (hcyc : ∃ v, Relation.TransGen (Edge nodes) v v) :
    topologicalSort nodes = [] := by
  obtain ⟨R₂, ⟨D₂, hInv⟩, hts⟩ := topologicalSort_run hids
  by_cases hlen : R₂.length = (nodeIds nodes).length
  · exfalso
    have hndR : R₂.Nodup := by simpa using hInv.nodup
    have hsubf : R₂.toFinset ⊆ (nodeIds nodes).toFinset := by
      intro x hx
      rw [List.mem_toFinset] at hx ⊢
      exact hInv.subKeys x (by simpa using hx)
    have hfeq : R₂.toFinset = (nodeIds nodes).toFinset :=
      Finset.eq_of_subset_of_card_le hsubf (by
        rw [List.toFinset_card_of_nodup hndR, List.toFinset_card_of_nodup hids]
        omega)
    have hall : ∀ v ∈ nodeIds nodes, v ∈ R₂ := by
      intro v hv
      rw [← List.mem_toFinset, hfeq, List.mem_toFinset]
      exact hv
    obtain ⟨v, hv⟩ := hcyc
    have hlt : ∀ a b, Relation.TransGen (Edge nodes) a b →
        R₂.indexOf a < R₂.indexOf b := by
      intro a b h
      induction h with
      | single he => exact edge_indexOf_lt hInv hall _ _ he
      | tail _ he ih => exact lt_trans ih (edge_indexOf_lt hInv hall _ _ he)
    exact lt_irrefl _ (hlt v v hv)
  · rw [hts, if_neg hlen]

lemma findNode_key {nodes : List NodeConfig} {nid : String} {n : NodeConfig}
    (h : findNode nodes nid = some n) : nodeKey n = nid := by
  have := List.find?_some h
  simpa using this

lemma findNode_eq_of_nodup {nodes : List NodeConfig}
    (hids : (nodeIds nodes).Nodup) {n : NodeConfig} (hn : n ∈ nodes) :
    findNode nodes (nodeKey n) = some n := by
  induction nodes with
  | nil => cases hn
  | cons n₀ ns ih =>
      simp only [nodeIds, List.map_cons, List.nodup_cons] at hids
      rcases List.mem_cons.1 hn with rfl | hn₀
      · unfold findNode
        rw [List.find?_cons_of_pos _ (by simp)]
      · have hne : nodeKey n₀ ≠ nodeKey n := by
          intro he
          apply hids.1
          rw [he]
          exact List.mem_map_of_mem nodeKey hn₀
        unfold findNode at ih ⊢
        rw [List.find?_cons_of_neg _ (by simpa using hne)]
        exact ih hids.2 hn₀

lemma setState_states_other (st : ExecState) (v : String) (s : NodeStatus)
    (x : String) (h : x ≠ v) : (setState st v s).states x = st.states x := by
  simp [setState, h]

lemma execNode_executed (env : RunEnv) (n : NodeConfig) (st : ExecState) :
    (execNode env n st).1.executed = st.executed := by
  simp only [execNode, execMarkerNode, execActionNode, execAssertionNode, setState]
  split_ifs <;> rfl

lemma execNode_states_other (env : RunEnv) (n : NodeConfig) (st : ExecState)
    (x : String) (h : x ≠ nodeKey n) :
    (execNode env n st).1.states x = st.states x := by
  simp only [execNode, execMarkerNode, execActionNode, execAssertionNode, setState]
  split_ifs <;> simp [h]

lemma runLoop_append (env : RunEnv) (nodes : List NodeConfig) :
    ∀ (l₁ l₂ : List String) (st : ExecState),
      runLoop env nodes (l₁ ++ l₂) st =
        runLoop env nodes l₂ (runLoop env nodes l₁ st) := by
  intro l₁
  induction l₁ with
  | nil => intro l₂ st; rfl
  | cons nid rest ih =>
      intro l₂ st
      simp only [List.cons_append, runLoop]
      cases hf : findNode nodes nid with
      | none => exact ih _ _
      | some n =>
          by_cases hc : checkDependencies nodes st.states nid
          · simp only [if_pos hc]
            exact ih _ _
          · simp only [if_neg hc]
            exact ih _ _

lemma runLoop_states_stable (env : RunEnv) (nodes : List NodeConfig) :
    ∀ (l : List String) (st : ExecState) (v : String),
      v ∉ l → (runLoop env nodes l st).states v = st.states v := by
  intro l
  induction l with
  | nil => intro st v _; rfl
  | cons nid rest ih =>
      intro st v hv
      have hvn : v ≠ nid := fun h => hv (h ▸ List.mem_cons_self _ _)
      have hvr : v ∉ rest := fun h => hv (List.mem_cons_of_mem _ h)
      simp only [runLoop]
      cases hf : findNode nodes nid with
      | none => exact ih _ _ hvr
      | some n =>
          have hkey := findNode_key hf
          by_cases hc : checkDependencies nodes st.states nid
          · simp only [if_pos hc]
            rw [ih _ _ hvr]
            exact execNode_states_other env n _ v (by rw [hkey]; exact hvn)
          · simp only [if_neg hc]
            rw [ih _ _ hvr]
            exact setState_states_other st nid NodeStatus.skipped v hvn

lemma runLoop_executed_sub (env : RunEnv) (nodes : List NodeConfig) :
    ∀ (l : List String) (st : ExecState) (v : String),
      v ∈ (runLoop env nodes l st).executed → v ∈ st.executed ∨ v ∈ l := by
  intro l
  induction l with
  | nil => intro st v h; exact Or.inl h
  | cons nid rest ih =>
      intro st v h
      simp only [runLoop] at h
      cases hf : findNode nodes nid with
      | none =>
          rw [hf] at h
          dsimp only at h
          rcases ih _ _ h with h1 | h1
          · exact Or.inl h1
          · exact Or.inr (List.mem_cons_of_mem _ h1)
      | some n =>
          rw [hf] at h
          dsimp only at h
          by_cases hc : checkDependencies nodes st.states nid
          · rw [if_pos hc] at h
            rcases ih _ _ h with h1 | h1
            · rw [execNode_executed] at h1
              simp only [List.mem_append, List.mem_singleton] at h1
              rcases h1 with h1 | rfl
              · exact Or.inl h1
              · exact Or.inr (List.mem_cons_self _ _)
            · exact Or.inr (List.mem_cons_of_mem _ h1)
          · rw [if_neg hc] at h
            rcases ih _ _ h with h1 | h1
            · exact Or.inl h1
            · exact Or.inr (List.mem_cons_of_mem _ h1)

lemma runLoop_executed_mono (env : RunEnv) (nodes : List NodeConfig) :
    ∀ (l : List String) (st : ExecState) (v : String),
      v ∈ st.executed → v ∈ (runLoop env nodes l st).executed := by
  intro l
  induction l with
  | nil => intro st v h; exact h
  | cons nid rest ih =>
      intro st v h
      simp only [runLoop]
      cases hf : findNode nodes nid with
      | none => exact ih _ _ h
      | some n =>
          by_cases hc : checkDependencies nodes st.states nid
          · simp only [if_pos hc]
            apply ih
            rw [execNode_executed]
            exact List.mem_append_left _ h
          · simp only [if_neg hc]
            exact ih _ _ h

lemma topologicalSort_acyclic_spec {nodes : List NodeConfig}
    (hids : (nodeIds nodes).Nodup) (hacyc : Acyclic nodes) :
    (topologicalSort nodes).Perm (nodeIds nodes) ∧
    (topologicalSort nodes).Nodup ∧
    (∀ n ∈ nodes, ∀ d ∈ n.dependencies, d ∈ nodeIds nodes →
      ∀ p q, topologicalSort nodes = p ++ nodeKey n :: q → d ∈ p) ∧
    (∀ n ∈ nodes, ∀ d ∈ n.dependencies, d ∈ nodeIds nodes →
      (topologicalSort nodes).indexOf d <
        (topologicalSort nodes).indexOf (nodeKey n)) := by
  obtain ⟨R₂, ⟨D₂, hInv⟩, hts⟩ := topologicalSort_run hids
  have hall := kahnInv_complete hacyc hInv
  have hndR : R₂.Nodup := by simpa using hInv.nodup
  have hsub : ∀ v ∈ R₂, v ∈ nodeIds nodes := fun v hv =>
    hInv.subKeys v (by simpa using hv)
  have hperm : R₂.Perm (nodeIds nodes) :=
    List.perm_of_nodup_nodup_toFinset_eq hndR hids (by
      ext x
      simp only [List.mem_toFinset]
      exact ⟨hsub x, hall x⟩)
  have hlen := hperm.length_eq
  have hts2 : topologicalSort nodes = R₂ := by rw [hts, if_pos hlen]
  rw [hts2]
  refine ⟨hperm, hndR, ?_, ?_⟩
  · intro n hn d hd hd_ids p q heq
    exact hInv.order n hn d hd hd_ids p q heq
  · intro n hn d hd hd_ids
    exact edge_indexOf_lt hInv hall d (nodeKey n) ⟨hd_ids, n, hn, rfl, hd⟩

lemma runLoop_gating (env : RunEnv) (nodes : List NodeConfig)
    (hids : (nodeIds nodes).Nodup) (hacyc : Acyclic nodes)
    (nA : NodeConfig) (hnA : nA ∈ nodes) :
    ((∃ B ∈ nA.dependencies,
        (runLoop env nodes (topologicalSort nodes) initExecState).states B =
            NodeStatus.failed ∨
          (runLoop env nodes (topologicalSort nodes) initExecState).states B =
            NodeStatus.skipped) →
      (runLoop env nodes (topologicalSort nodes) initExecState).states (nodeKey nA) =
          NodeStatus.skipped ∧
        nodeKey nA ∉
          (runLoop env nodes (topologicalSort nodes) initExecState).executed) ∧
    ((∀ d ∈ nA.dependencies,
        ¬ ((runLoop env nodes (topologicalSort nodes) initExecState).states d =
              NodeStatus.failed ∨
            (runLoop env nodes (topologicalSort nodes) initExecState).states d =
              NodeStatus.skipped)) →
      nodeKey nA ∈
        (runLoop env nodes (topologicalSort nodes) initExecState).executed) := by
  obtain ⟨hperm, hnd_ord, hsplit, -⟩ := topologicalSort_acyclic_spec hids hacyc
  have hA_ids : nodeKey nA ∈ nodeIds nodes := List.mem_map_of_mem nodeKey hnA
  have hA_ord : nodeKey nA ∈ topologicalSort nodes := hperm.mem_iff.2 hA_ids
  obtain ⟨l₁, l₂, hdecomp⟩ := List.append_of_mem hA_ord
  have hnd' : (l₁ ++ nodeKey nA :: l₂).Nodup := hdecomp ▸ hnd_ord
  have hA_notm : nodeKey nA ∉ l₁ ++ l₂ :=
    (List.nodup_cons.1 (List.nodup_middle.1 hnd')).1
  have hA_notl₁ : nodeKey nA ∉ l₁ := fun h => hA_notm (List.mem_append_left _ h)
  have hA_notl₂ : nodeKey nA ∉ l₂ := fun h => hA_notm (List.mem_append_right _ h)
  have hfinal : runLoop env nodes (topologicalSort nodes) initExecState =
      runLoop env nodes (nodeKey nA :: l₂)
        (runLoop env nodes l₁ initExecState) := by
    rw [hdecomp, runLoop_append]
  have hfind : findNode nodes (nodeKey nA) = some nA := findNode_eq_of_nodup hids hnA
  have hsame : ∀ d ∈ nA.dependencies,
      (runLoop env nodes (topologicalSort nodes) initExecState).states d =
        (runLoop env nodes l₁ initExecState).states d := by
    intro d hd
    by_cases hd_ids : d ∈ nodeIds nodes
    · have hd_l₁ : d ∈ l₁ := hsplit nA hnA d hd hd_ids l₁ l₂ hdecomp
      have hd_not : d ∉ nodeKey nA :: l₂ := by
        intro hmem
        exact (List.nodup_append.1 hnd').2.2 hd_l₁
          (by simpa using hmem)
      rw [hfinal]
      exact runLoop_states_stable env nodes (nodeKey nA :: l₂) _ d hd_not
    · have hd_ord : d ∉ topologicalSort nodes := fun hmem =>
        hd_ids (hperm.mem_iff.1 hmem)
      have h1 := runLoop_states_stable env nodes (topologicalSort nodes)
        initExecState d hd_ord
      have h2 := runLoop_states_stable env nodes l₁ initExecState d
        (fun h => hd_ord (hdecomp ▸ List.mem_append_left _ h))
      rw [h1, h2]
  constructor
  · rintro ⟨B, hB, hBstat⟩
    have hBst1 : (runLoop env nodes l₁ initExecState).states B = NodeStatus.failed ∨
        (runLoop env nodes l₁ initExecState).states B = NodeStatus.skipped := by
      rw [← hsame B hB]
      exact hBstat
    have hcheck : checkDependencies nodes
        (runLoop env nodes l₁ initExecState).states (nodeKey nA) = false := by
      unfold checkDependencies
      rw [hfind]
      simp only [List.all_eq_false]
      refine ⟨B, hB, ?_⟩
      simp [decide_eq_true hBst1]
    have hstep : runLoop env nodes (nodeKey nA :: l₂)
        (runLoop env nodes l₁ initExecState) =
        runLoop env nodes l₂
          (setState (runLoop env nodes l₁ initExecState) (nodeKey nA)
            NodeStatus.skipped) := by
      simp [runLoop, hfind, hcheck]
    constructor
    · rw [hfinal, hstep,
        runLoop_states_stable env nodes l₂ _ (nodeKey nA) hA_notl₂]
      simp [setState]
    · rw [hfinal, hstep]
      intro hmem
      rcases runLoop_executed_sub env nodes l₂ _ (nodeKey nA) hmem with h1 | h1
      · have h2 : nodeKey nA ∈ (runLoop env nodes l₁ initExecState).executed := h1
        rcases runLoop_executed_sub env nodes l₁ initExecState (nodeKey nA) h2
          with h3 | h3
        · simp [initExecState] at h3
        · exact hA_notl₁ h3
      · exact hA_notl₂ h1
  · intro hgood
    have hcheck : checkDependencies nodes
        (runLoop env nodes l₁ initExecState).states (nodeKey nA) = true := by
      unfold checkDependencies
      rw [hfind]
      simp only [List.all_eq_true]
      intro d hd
      have := hgood d hd
      rw [hsame d hd] at this
      simpa using this
    have hstep : runLoop env nodes (nodeKey nA :: l₂)
        (runLoop env nodes l₁ initExecState) =
        runLoop env nodes l₂
          (execNode env nA
            { runLoop env nodes l₁ initExecState with
              executed :=
                (runLoop env nodes l₁ initExecState).executed ++ [nodeKey nA] }).1 := by
      simp [runLoop, hfind, hcheck]
    rw [hfinal, hstep]
    apply runLoop_executed_mono
    rw [execNode_executed]
    exact List.mem_append_right _ (by simp)

lemma dialogLoop_allfail (m : Nat)
    (evalCustom : String → Option DialogTurnRec → Int → Rat → EvalRes)
    (checkTask : Resp → Bool) (nextMsg : List DialogTurnRec → String) :
    ∀ (fuel i : Nat) (st : DialogState),
      st.turnCount ≤ m → m ≤ st.turnCount + fuel →
      dialogLoop { max_turns := (m : Int) } (fun _ => false) evalCustom checkTask
        (fun _ => none) nextMsg (fun _ => 0) fuel i st =
        { st with turnCount := m } := by
  intro fuel
  induction fuel with
  | zero =>
      intro i st h1 h2
      have heq : st.turnCount = m := by omega
      rw [← heq]
      rfl
  | succ fuel ih =>
      intro i st h1 h2
      by_cases hlt : st.turnCount < m
      · have hsc : shouldContinueDialog { max_turns := (m : Int) } (fun _ => false)
            evalCustom (st.turnCount : Int) 0 (lastHistEntry st) = true := by
          unfold shouldContinueDialog
          rw [if_neg (by push_cast; omega)]
          norm_num
        simp only [dialogLoop, hsc, if_true]
        have hsend : (sendTurn checkTask (fun _ => none)
            (nextMsg st.history) st).1 = { st with turnCount := st.turnCount + 1 } := rfl
        rw [hsend]
        exact ih (i + 1) _ (by simp; omega) (by simp; omega)
      · have heq : st.turnCount = m := by omega
        have hsc : shouldContinueDialog { max_turns := (m : Int) } (fun _ => false)
            evalCustom (st.turnCount : Int) 0 (lastHistEntry st) = false := by
          unfold shouldContinueDialog
          rw [if_pos (by push_cast; omega)]
        simp only [dialogLoop, hsc]
        rw [← heq]
        rfl

/-! ### Claims -/

/-- C1 (amended): for every assertion node (and condition node, which
shares the implementation), if evaluating the node's boolean condition
expression raises a parse or runtime error, the error is caught and not
propagated — but `_evaluate_condition` returns `True` from its `except`
branch, so the node's final status is `success` (never `failed`) and
`_execute_assertion_node` returns `True`. -/
theorem c1_assertion_eval_error_yields_success (env : RunEnv) (n : NodeConfig)
    (st : ExecState)
    (ht : normType n.node_type = "assertion" ∨ normType n.node_type = "condition")
    (he : env.evalCond (nodeKey n) = EvalRes.error) :
    (execNode env n st).1.states (nodeKey n) = NodeStatus.success ∧
    (execNode env n st).2 = true := by
  have hs : evaluateCondition (env.evalCond (nodeKey n)) = true := by
    rw [he]
    rfl
  rcases ht with h | h <;>
    simp [execNode, h, execAssertionNode, hs, setState]

/-- C1 witness: a concrete assertion node whose condition expression
raises at evaluation ends with status `success` and result `True`. -/
theorem c1_witness :
    (execNode { evalCond := fun _ => EvalRes.error }
        { node_id := "a1", node_type := "assertion" } initExecState).1.states
      (nodeKey { node_id := "a1", node_type := "assertion" }) = NodeStatus.success ∧
    (execNode { evalCond := fun _ => EvalRes.error }
        { node_id := "a1", node_type := "assertion" } initExecState).2 = true :=
  c1_assertion_eval_error_yields_success
    { evalCond := fun _ => EvalRes.error }
    { node_id := "a1", node_type := "assertion" } initExecState
    (Or.inl (by decide)) rfl

/-- C1 counterexample: at the same concrete input the claim asserts final
status `failed`; the actual final status is `success`, which is not
`failed`, so the claim as stated is false. -/
theorem c1_counterexample :
    (execNode { evalCond := fun _ => EvalRes.error }
        { node_id := "a1", node_type := "assertion" } initExecState).1.states
      "a1" = NodeStatus.success ∧
    NodeStatus.success ≠ NodeStatus.failed := by
  constructor
  · decide
  · decide

/-- C2 (amended): when the max-turns, timeout, and task-detection checks
have not fired and the custom predicate raises a parse or runtime error,
`should_continue_dialog` returns `True` (continue), the `except` branch of
the source; the dialog stays bounded only because the max-turns and
timeout checks run first on later calls. -/
theorem c2_custom_eval_error_continues {α : Type} (ec : ExitCondition)
    (checkTask : α → Bool) (evalCustom : String → α → Int → Rat → EvalRes)
    (turns : Int) (elapsed : Rat) (last : α) (code : String)
    (h1 : turns < ec.max_turns) (h2 : ¬ elapsed > (ec.timeout_seconds : Rat))
    (h3 : checkTask last = false) (hc : ec.custom_check_func = some code)
    (hcode : code ≠ "") (he : evalCustom code last turns elapsed = EvalRes.error) :
    shouldContinueDialog ec checkTask evalCustom turns elapsed last = true := by
  unfold shouldContinueDialog
  rw [if_neg (not_le.2 h1), if_neg h2, h3, hc]
  simp [hcode, he]

/-- C2 witness: a concrete erroring custom predicate with
`turns = 0 < max_turns = 10`, `elapsed = 0 ≤ timeout = 300` and detection
off: the method returns `True`. -/
theorem c2_witness :
    shouldContinueDialog { custom_check_func := some "len(" }
      (fun _ : Unit => false) (fun _ _ _ _ => EvalRes.error) 0 0 () = true :=
  c2_custom_eval_error_continues { custom_check_func := some "len(" }
    (fun _ : Unit => false) (fun _ _ _ _ => EvalRes.error) 0 0 () "len("
    (by decide) (by decide) rfl rfl (by decide) rfl

/-- C2 counterexample: at the same concrete input the claim requires
`should_continue_dialog` to return false (stop); it returns true. -/
theorem c2_counterexample :
    ¬ (shouldContinueDialog { custom_check_func := some "len(" }
        (fun _ : Unit => false) (fun _ _ _ _ => EvalRes.error) 0 0 () = false) := by
  decide

/-- C3: the node-based aggregation (`_run_users_node_based`) is exact:
`success_users` counts the tasks resolving `True`, `failed_users` counts
those resolving `False` or raising, together they cover all
`total_users = results.length` outcomes, `progress` is `100` (which equals
`round(100 * (success + failed) / total_users)` at completion), and the
run status is `done` exactly when `failed_users = 0`, else `failed`.
The claim also cites the YAML-mode `_run_users`, where line 169 reads
`TestRunStatus.DONE if failed == 0 else TestRunStatus.DONE` — both
branches are `DONE` — so there a run with failures still ends `done`:
the final two conjuncts evaluate that code at the claim's own example of
7 successes and 3 failures. -/
theorem c3_aggregation_exact :
    (∀ results : List UserOutcome, 0 < results.length →
      (nodeBasedAggregate results results.length).success_users =
          results.countP (fun r => decide (r = UserOutcome.ok)) ∧
      (nodeBasedAggregate results results.length).failed_users =
          results.countP (fun r => (decide (r = UserOutcome.bad) || decide (r = UserOutcome.exc))) ∧
      (nodeBasedAggregate results results.length).success_users +
          (nodeBasedAggregate results results.length).failed_users = results.length ∧
      (nodeBasedAggregate results results.length).progress = 100 ∧
      (nodeBasedAggregate results results.length).status =
        (if (nodeBasedAggregate results results.length).failed_users = 0
          then RunStatus.done else RunStatus.failed)) ∧
    (yamlAggregate (List.replicate 7 UserOutcome.ok ++
        List.replicate 3 UserOutcome.bad)).failed_users = 3 ∧
    (yamlAggregate (List.replicate 7 UserOutcome.ok ++
        List.replicate 3 UserOutcome.bad)).status = TestRunStatus.done := by
  have hpart : ∀ results : List UserOutcome,
      results.countP (fun r => decide (r = UserOutcome.ok)) +
        results.countP (fun r => (decide (r = UserOutcome.bad) || decide (r = UserOutcome.exc))) =
        results.length := by
    intro results
    induction results with
    | nil => rfl
    | cons r l ih =>
        cases r <;> simp [List.countP_cons] <;> omega
  refine ⟨?_, by decide, by decide⟩
  intro results hlen
  refine ⟨rfl, rfl, hpart results, ?_, rfl⟩
  show (if results.length ≠ 0 then
      ⌊(((results.countP (fun r => decide (r = UserOutcome.ok)) +
          results.countP (fun r => (decide (r = UserOutcome.bad) || decide (r = UserOutcome.exc))) : Nat) : Rat) /
        (results.length : Rat)) * 100⌋ else 0) = 100
  rw [hpart results, if_pos (by omega)]
  have hne : ((results.length : Nat) : Rat) ≠ 0 := by
    exact_mod_cast Nat.pos_iff_ne_zero.1 hlen
  rw [div_self hne, one_mul]
  norm_num

/-- C3 witness: the claim's example — 7 successful and 3 failed user
outcomes — through the node-based aggregation. -/
theorem c3_witness :
    0 < (List.replicate 7 UserOutcome.ok ++ List.replicate 3 UserOutcome.bad).length ∧
    (nodeBasedAggregate (List.replicate 7 UserOutcome.ok ++ List.replicate 3 UserOutcome.bad)
        (List.replicate 7 UserOutcome.ok ++ List.replicate 3 UserOutcome.bad).length).success_users = 7 ∧
    (nodeBasedAggregate (List.replicate 7 UserOutcome.ok ++ List.replicate 3 UserOutcome.bad)
        (List.replicate 7 UserOutcome.ok ++ List.replicate 3 UserOutcome.bad).length).failed_users = 3 ∧
    (nodeBasedAggregate (List.replicate 7 UserOutcome.ok ++ List.replicate 3 UserOutcome.bad)
        (List.replicate 7 UserOutcome.ok ++ List.replicate 3 UserOutcome.bad).length).progress = 100 ∧
    (nodeBasedAggregate (List.replicate 7 UserOutcome.ok ++ List.replicate 3 UserOutcome.bad)
        (List.replicate 7 UserOutcome.ok ++ List.replicate 3 UserOutcome.bad).length).status =
      RunStatus.failed := by
  have h := c3_aggregation_exact.1
    (List.replicate 7 UserOutcome.ok ++ List.replicate 3 UserOutcome.bad) (by decide)
  refine ⟨by decide, ?_, ?_, h.2.2.2.1, ?_⟩
  · rw [h.1]
    decide
  · rw [h.2.1]
    decide
  · rw [h.2.2.2.2]
    decide

/-- C4 (amended): when the agent call for a turn returns `success=False`,
`_send_turn` increments `turn_count` and returns the empty dict but
records nothing — no `DialogTurn` row is created and no history entry is
appended — and the dialog loop is not aborted by the failure: with an
agent that fails every call the loop still runs to `max_turns`, stopped
only by the exit policy, with an empty turn record. -/
theorem c4_failed_turn_not_recorded (checkTask : Resp → Bool)
    (httpCall : Nat → Option Resp) (msg : String) (st : DialogState)
    (hfail : httpCall (st.turnCount + 1) = none) :
    sendTurn checkTask httpCall msg st =
      ({ st with turnCount := st.turnCount + 1 }, ([] : Resp)) ∧
    ∀ (m fuel : Nat), 1 ≤ m → m ≤ fuel →
      ∀ (evalCustom : String → Option DialogTurnRec → Int → Rat → EvalRes)
        (checkTask₂ : Resp → Bool) (nextMsg : List DialogTurnRec → String)
        (initialMessage : String),
        executeDialog { max_turns := (m : Int) } (fun _ => false) evalCustom
          checkTask₂ (fun _ => none) nextMsg (fun _ => 0) initialMessage fuel =
          { turnCount := m, history := [], turns := [] } := by
  constructor
  · simp [sendTurn, hfail]
  · intro m fuel hm hfuel evalCustom ct nm im
    unfold executeDialog
    have hst0 : (sendTurn ct (fun _ => none) im {}).1 =
        ({ turnCount := 1, history := [], turns := [] } : DialogState) := rfl
    rw [hst0]
    exact dialogLoop_allfail m evalCustom ct nm fuel 0 _ (by simp; omega)
      (by simp; omega)

/-- C4 witness: a concrete failed turn records nothing and only bumps the
counter; a dialog whose every call fails still runs its 3 turns. -/
theorem c4_witness :
    sendTurn (fun _ => false) (fun _ => none) "hi" {} =
      ({ turnCount := 1 }, ([] : Resp)) ∧
    executeDialog { max_turns := ((3 : Nat) : Int) } (fun _ => false)
      (fun _ _ _ _ => EvalRes.ok true) (fun _ => false) (fun _ => none)
      (fun _ => "m") (fun _ => 0) "start" 5 =
      { turnCount := 3, history := [], turns := [] } := by
  have h := c4_failed_turn_not_recorded (fun _ => false) (fun _ => none) "hi" {} rfl
  exact ⟨h.1, h.2 3 5 (by decide) (by decide) (fun _ _ _ _ => EvalRes.ok true)
    (fun _ => false) (fun _ => "m") "start"⟩

/-- C4 counterexample: after a turn whose agent call failed, the
conversation contains no `DialogTurn` at all — in particular not the
claimed turn with an empty response, so the number of recorded turns did
not grow. -/
theorem c4_counterexample :
    (sendTurn (fun _ => false) (fun _ => none) "hello" {}).1.turns = [] ∧
    ¬ ((sendTurn (fun _ => false) (fun _ => none) "hello" {}).1.turns.length =
        ({} : DialogState).turns.length + 1) := by
  constructor
  · rfl
  · decide

/-- C5: for every scenario (with pairwise-distinct node ids, the data
model's invariant) whose dependency graph contains a directed cycle,
`_topological_sort` returns the empty order and `run` aborts before any
node is executed: `run` returns `False` (the user counts as a failed
outcome), no node is passed to `_execute_node`, no `node_states`
assignment is made by the node loop, and every node's status stays
`pending` — in particular none ever becomes `running`, `success` or
`failed`. -/
theorem c5_cycle_aborts_before_any_node (env : RunEnv) (nodes : List NodeConfig)
    (hids : (nodeIds nodes).Nodup)
    (hcyc : ∃ v, Relation.TransGen (Edge nodes) v v) :
    topologicalSort nodes = [] ∧
    (runUser env nodes).returned = false ∧
    (runUser env nodes).state.trace = [] ∧
    (runUser env nodes).state.executed = [] ∧
    ∀ v, (runUser env nodes).state.states v = NodeStatus.pending := by
  have hts := topologicalSort_of_cycle hids hcyc
  have hrun : runUser env nodes =
      { returned := false, userStatus := none, state := initExecState } := by
    cases hcr : env.createOk
    · simp [runUser, hcr]
    · simp [runUser, hcr, hts]
  rw [hrun]
  exact ⟨hts, rfl, rfl, rfl, fun v => rfl⟩

/-- C5 witness: the two-node cycle `a → b → a`. -/
theorem c5_witness :
    topologicalSort
        [{ node_id := "a", node_type := "action", dependencies := ["b"] },
         { node_id := "b", node_type := "action", dependencies := ["a"] }] = [] ∧
    (runUser {}
        [{ node_id := "a", node_type := "action", dependencies := ["b"] },
         { node_id := "b", node_type := "action", dependencies := ["a"] }]).returned =
      false := by
  have hab : Edge
      [{ node_id := "a", node_type := "action", dependencies := ["b"] },
       { node_id := "b", node_type := "action", dependencies := ["a"] }] "a" "b" :=
    ⟨by decide, { node_id := "b", node_type := "action", dependencies := ["a"] },
      by decide, by decide, by decide⟩
  have hba : Edge
      [{ node_id := "a", node_type := "action", dependencies := ["b"] },
       { node_id := "b", node_type := "action", dependencies := ["a"] }] "b" "a" :=
    ⟨by decide, { node_id := "a", node_type := "action", dependencies := ["b"] },
      by decide, by decide, by decide⟩
  have h := c5_cycle_aborts_before_any_node {}
    [{ node_id := "a", node_type := "action", dependencies := ["b"] },
     { node_id := "b", node_type := "action", dependencies := ["a"] }]
    (by decide)
    ⟨"a", Relation.TransGen.tail (Relation.TransGen.single hab) hba⟩
  exact ⟨h.1, h.2.1⟩

/-- C6: for every acyclic scenario graph (pairwise-distinct node ids),
the execution order computed by `_topological_sort` (Kahn's algorithm)
is a permutation of the node-id list — it contains every node exactly
once — and for every edge `dep ∈ dependencies(n)` (with `dep` a known
node id), `dep` appears strictly before `n` in the order. -/
theorem c6_topological_sort_correct (nodes : List NodeConfig)
    (hids : (nodeIds nodes).Nodup) (hacyc : Acyclic nodes) :
    (topologicalSort nodes).Perm (nodeIds nodes) ∧
    ∀ n ∈ nodes, ∀ d ∈ n.dependencies, d ∈ nodeIds nodes →
      (topologicalSort nodes).indexOf d <
        (topologicalSort nodes).indexOf (nodeKey n) := by
  obtain ⟨hperm, -, -, hidx⟩ := topologicalSort_acyclic_spec hids hacyc
  exact ⟨hperm, hidx⟩

/-- C6 witness: the chain `s → a → e`. -/
theorem c6_witness :
    (topologicalSort
        [{ node_id := "s", node_type := "start" },
         { node_id := "a", node_type := "action", dependencies := ["s"] },
         { node_id := "e", node_type := "end", dependencies := ["a"] }]).Perm
      (nodeIds
        [{ node_id := "s", node_type := "start" },
         { node_id := "a", node_type := "action", dependencies := ["s"] },
         { node_id := "e", node_type := "end", dependencies := ["a"] }]) ∧
    ∀ n ∈ [{ node_id := "s", node_type := "start" },
           { node_id := "a", node_type := "action", dependencies := ["s"] },
           { node_id := "e", node_type := "end", dependencies := ["a"] }],
      ∀ d ∈ n.dependencies,
        d ∈ nodeIds
          [{ node_id := "s", node_type := "start" },
           { node_id := "a", node_type := "action", dependencies := ["s"] },
           { node_id := "e", node_type := "end", dependencies := ["a"] }] →
        (topologicalSort
            [{ node_id := "s", node_type := "start" },
             { node_id := "a", node_type := "action", dependencies := ["s"] },
             { node_id := "e", node_type := "end", dependencies := ["a"] }]).indexOf d <
          (topologicalSort
              [{ node_id := "s", node_type := "start" },
               { node_id := "a", node_type := "action", dependencies := ["s"] },
               { node_id := "e", node_type := "end", dependencies := ["a"] }]).indexOf
            (nodeKey n) := by
  apply c6_topological_sort_correct
  · decide
  · refine ⟨fun v => if v = "s" then 0 else if v = "a" then 1 else 2, ?_⟩
    rintro a b ⟨ha, n, hn, hkey, hdep⟩
    simp only [List.mem_cons, List.not_mem_nil, or_false] at hn
    rcases hn with rfl | rfl | rfl
    · simp at hdep
    · simp only [List.mem_cons, List.not_mem_nil, or_false] at hdep
      subst hdep
      rw [← hkey]
      decide
    · simp only [List.mem_cons, List.not_mem_nil, or_false] at hdep
      subst hdep
      rw [← hkey]
      decide

/-- C7: in every user traversal of an acyclic graph (distinct node ids,
user record created), dependency gating: if node `A` lists `B` among its
dependencies and `B`'s recorded status is `failed` or `skipped` (statuses
are written once, when the node's turn in topological order is processed,
and never change afterwards, so its final status is its status when `A`
is reached), then `A`'s final status is `skipped` and `A` is never passed
to `_execute_node`; the skip cascades because a skipped `A` satisfies the
same hypothesis for its own dependents.  Conversely, a node none of whose
dependencies ended `failed`/`skipped` is executed. -/
theorem c7_cascading_skip (env : RunEnv) (nodes : List NodeConfig)
    (hids : (nodeIds nodes).Nodup) (hacyc : Acyclic nodes)
    (hcr : env.createOk = true) (nA : NodeConfig) (hnA : nA ∈ nodes) :
    ((∃ B ∈ nA.dependencies,
        (runUser env nodes).state.states B = NodeStatus.failed ∨
        (runUser env nodes).state.states B = NodeStatus.skipped) →
      (runUser env nodes).state.states (nodeKey nA) = NodeStatus.skipped ∧
      nodeKey nA ∉ (runUser env nodes).state.executed) ∧
    ((∀ d ∈ nA.dependencies,
        ¬ ((runUser env nodes).state.states d = NodeStatus.failed ∨
           (runUser env nodes).state.states d = NodeStatus.skipped)) →
      nodeKey nA ∈ (runUser env nodes).state.executed) := by
  have hne : ¬ (topologicalSort nodes).isEmpty = true := by
    obtain ⟨hperm, -, -, -⟩ := topologicalSort_acyclic_spec hids hacyc
    intro h0
    rw [List.isEmpty_iff] at h0
    have hlen := hperm.length_eq
    rw [h0] at hlen
    have hnil : nodeIds nodes = [] := List.eq_nil_of_length_eq_zero hlen.symm
    have hmem := List.mem_map_of_mem nodeKey hnA
    rw [show List.map nodeKey nodes = nodeIds nodes from rfl, hnil] at hmem
    exact List.not_mem_nil _ hmem
  have hrw : (runUser env nodes).state =
      runLoop env nodes (topologicalSort nodes) initExecState := by
    simp [runUser, hcr, hne]
  rw [hrw]
  exact runLoop_gating env nodes hids hacyc nA hnA

/-- C7 witness: `b → a` where `b` is an action node whose HTTP call
fails; `a` ends `skipped` and is never executed, while an independent
node `c` with a healthy dependency is executed. -/
theorem c7_witness :
    (runUser { httpOk := fun nid => !(nid == "b") }
        [{ node_id := "b", node_type := "action" },
         { node_id := "a", node_type := "action", dependencies := ["b"] }]).state.states
      "a" = NodeStatus.skipped ∧
    "a" ∉ (runUser { httpOk := fun nid => !(nid == "b") }
        [{ node_id := "b", node_type := "action" },
         { node_id := "a", node_type := "action", dependencies := ["b"] }]).state.executed := by
  have hacyc : Acyclic
      [{ node_id := "b", node_type := "action" },
       { node_id := "a", node_type := "action", dependencies := ["b"] }] := by
    refine ⟨fun v => if v = "b" then 0 else 1, ?_⟩
    rintro x y ⟨hx, n, hn, hkey, hdep⟩
    simp only [List.mem_cons, List.not_mem_nil, or_false] at hn
    rcases hn with rfl | rfl
    · simp at hdep
    · simp only [List.mem_cons, List.not_mem_nil, or_false] at hdep
      subst hdep
      rw [← hkey]
      decide
  have h := (c7_cascading_skip { httpOk := fun nid => !(nid == "b") }
      [{ node_id := "b", node_type := "action" },
       { node_id := "a", node_type := "action", dependencies := ["b"] }]
      (by decide) hacyc rfl
      { node_id := "a", node_type := "action", dependencies := ["b"] }
      (by decide)).1 ⟨"b", by decide, by decide⟩
  exact h

/-- C8: `should_continue_dialog` returns `False` whenever
`turns ≥ max_turns` (in particular at `turns = max_turns` exactly), and
`False` whenever `elapsed_time` exceeds `timeout_seconds` by any positive
amount; `elapsed_time = timeout_seconds` alone does not force a stop —
with the other checks quiet the method still returns `True` there. -/
theorem c8_max_turns_and_timeout {α : Type} (ec : ExitCondition)
    (checkTask : α → Bool) (evalCustom : String → α → Int → Rat → EvalRes)
    (turns : Int) (elapsed : Rat) (last : α) :
    (turns ≥ ec.max_turns →
      shouldContinueDialog ec checkTask evalCustom turns elapsed last = false) ∧
    (elapsed > (ec.timeout_seconds : Rat) →
      shouldContinueDialog ec checkTask evalCustom turns elapsed last = false) ∧
    (elapsed = (ec.timeout_seconds : Rat) → turns < ec.max_turns →
      checkTask last = false → ec.custom_check_func = none →
      shouldContinueDialog ec checkTask evalCustom turns elapsed last = true) := by
  refine ⟨?_, ?_, ?_⟩
  · intro h
    simp [shouldContinueDialog, h]
  · intro h
    unfold shouldContinueDialog
    by_cases h1 : turns ≥ ec.max_turns
    · rw [if_pos h1]
    · rw [if_neg h1, if_pos h]
  · intro he hlt hct hcf
    unfold shouldContinueDialog
    rw [if_neg (not_le.2 hlt), if_neg (by rw [he]; exact lt_irrefl _), hct, hcf]
    simp

/-- C8 witness: `turns = max_turns = 5` stops; `elapsed = 301 > 300`
stops; `elapsed = 300 = timeout` alone continues. -/
theorem c8_witness :
    shouldContinueDialog { max_turns := 5 } (fun _ : Unit => false)
      (fun _ _ _ _ => EvalRes.ok true) 5 0 () = false ∧
    shouldContinueDialog {} (fun _ : Unit => false)
      (fun _ _ _ _ => EvalRes.ok true) 0 301 () = false ∧
    shouldContinueDialog {} (fun _ : Unit => false)
      (fun _ _ _ _ => EvalRes.ok true) 0 300 () = true := by
  refine ⟨?_, ?_, ?_⟩
  · exact (c8_max_turns_and_timeout { max_turns := 5 } (fun _ : Unit => false)
      (fun _ _ _ _ => EvalRes.ok true) 5 0 ()).1 (by decide)
  · exact (c8_max_turns_and_timeout {} (fun _ : Unit => false)
      (fun _ _ _ _ => EvalRes.ok true) 0 301 ()).2.1 (by norm_num)
  · exact (c8_max_turns_and_timeout {} (fun _ : Unit => false)
      (fun _ _ _ _ => EvalRes.ok true) 0 300 ()).2.2 (by norm_num) (by decide)
      rfl rfl

/-- C9: `StateMachine.transition(s, t)` succeeds — returning `True` and
moving to `t` — exactly when `t` is in the adjacency table entry for `s`;
otherwise it returns `False` and the state is unchanged (a total
function, never an exception); the terminal states `completed`, `failed`
and `cancelled` have empty adjacency entries, so they admit no outgoing
transition. -/
theorem c9_state_machine_guarded :
    (∀ s t : TestState,
      stTransition s t =
        (decide (t ∈ stTransitions s),
          if t ∈ stTransitions s then t else s)) ∧
    stTransitions TestState.completed = [] ∧
    stTransitions TestState.failed = [] ∧
    stTransitions TestState.cancelled = [] := by
  refine ⟨fun s t => ?_, rfl, rfl, rfl⟩
  cases s <;> cases t <;> rfl

/-- C10 (implicit behaviour): whenever the user-execution record is
created and the topological sort succeeds (and, as in this embedding, no
exception escapes the node loop), `run` finalises the user with status
`SUCCESS` and returns `True` — for every oracle `env`, i.e. regardless of
how many nodes ended `failed` or `skipped`. -/
theorem c10_user_success_despite_node_failures (env : RunEnv)
    (nodes : List NodeConfig) (hcr : env.createOk = true)
    (hs : topologicalSort nodes ≠ []) :
    (runUser env nodes).returned = true ∧
    (runUser env nodes).userStatus = some NodeStatus.success := by
  have hne : ¬ (topologicalSort nodes).isEmpty = true := by
    rw [List.isEmpty_iff]
    exact hs
  constructor <;> simp [runUser, hcr, hne]

/-- C10 witness: a two-node chain whose action node fails its HTTP call:
the node ends `failed`, yet the user run returns `True` with terminal
status `SUCCESS`. -/
theorem c10_witness :
    (runUser { httpOk := fun _ => false }
        [{ node_id := "s", node_type := "start" },
         { node_id := "a", node_type := "action", dependencies := ["s"] }]).returned =
      true ∧
    (runUser { httpOk := fun _ => false }
        [{ node_id := "s", node_type := "start" },
         { node_id := "a", node_type := "action", dependencies := ["s"] }]).userStatus =
      some NodeStatus.success ∧
    (runUser { httpOk := fun _ => false }
        [{ node_id := "s", node_type := "start" },
         { node_id := "a", node_type := "action", dependencies := ["s"] }]).state.states
      "a" = NodeStatus.failed := by
  have h := c10_user_success_despite_node_failures { httpOk := fun _ => false }
    [{ node_id := "s", node_type := "start" },
     { node_id := "a", node_type := "action", dependencies := ["s"] }]
    rfl (by decide)
  exact ⟨h.1, h.2, by decide⟩

end ATP
